import Mathlib

/-!
Verification of the micro-lisp interpreter (src/main.rs, src/arithmetic.rs):
a shallow embedding of its Token data model, lexer, parser and evaluator,
followed by theorems settling the specification claims.

Conventions of the embedding:
* Rust `i32` values are modelled as unbounded `Int` with an explicit
  two's-complement wrap (`i32wrap`) at every arithmetic operation
  (release-profile wrapping semantics), and an explicit range check where
  the source parses an integer literal (`parse::<i32>().unwrap()`).
* `panic!` / `unwrap` failures are modelled as the `fatal` result;
  evaluation carries a fuel parameter so that the (possibly divergent)
  `while` loop is total in Lean; `timeout` marks fuel exhaustion and is
  not a behaviour of the source program.
* The `HashMap<Token, Token>` of variables is modelled as an association
  list queried and updated through the source's own `PartialEq` relation
  (`rustEq`, which reproduces the source's `Close == Open` oddity).
* `print`'s output channel is not modelled; `print` returns its evaluated
  operand exactly as the source does.
-/

inductive Token where
  | Open : Token
  | Close : Token
  | Int (i : ℤ) : Token
  | Symbol (s : String) : Token
  | List (l : List Token) : Token
  | True : Token
  | False : Token
deriving Repr

/-- The variable mapping: `HashMap<Token, Token>` as an association list. -/
abbrev Vars := List (Token × Token)

mutual

/-- `impl PartialEq for Token` from src/arithmetic.rs, clause for clause.
Note the source's oddity: `Close == Open` is `true` while `Close == Close`
is `false` (the `Close` arm only recognises `Open`). -/
def rustEq : Token → Token → Bool
  | Token.Open, o => match o with
    | Token.Open => true
    | _ => false
  | Token.Close, o => match o with
    | Token.Open => true
    | _ => false
  | Token.Int i1, o => match o with
    | Token.Int i2 => i1 == i2
    | _ => false
  | Token.Symbol s1, o => match o with
    | Token.Symbol s2 => s1 == s2
    | _ => false
  | Token.List l1, o => match o with
    | Token.List l2 => rustEqList l1 l2
    | _ => false
  | Token.True, o => match o with
    | Token.True => true
    | _ => false
  | Token.False, o => match o with
    | Token.False => true
    | _ => false

/-- `Vec<Token> == Vec<Token>`: equal lengths and elementwise `rustEq`. -/
def rustEqList : List Token → List Token → Bool
  | [], [] => true
  | x :: xs, y :: ys => rustEq x y && rustEqList xs ys
  | _, _ => false

end

/-- `vars.get(&k)`: find the entry whose stored key matches the query
under the source's equality. -/
def getVar (vars : Vars) (k : Token) : Option Token :=
  (List.find? (fun p => rustEq k p.1) vars).map (fun p => p.2)

/-- `vars.insert(k, v)`: replace the value of an existing matching key,
otherwise add a new entry. -/
def setVar (vars : Vars) (k v : Token) : Vars :=
  if List.any vars (fun p => rustEq k p.1) then
    List.map (fun p => if rustEq k p.1 then (p.1, v) else p) vars
  else vars ++ [(k, v)]

/-- `fn remap_bool` from src/main.rs. -/
def remapBool (value : Bool) : Token :=
  if value then Token.True else Token.False

/-- The Rust pattern test `if let True = v` / `while let True = v`. -/
def isTrueTok : Token → Bool
  | Token.True => true
  | _ => false

/-- Two's-complement wrap into the `i32` range. -/
def i32wrap (n : ℤ) : ℤ := (n + 2 ^ 31) % 2 ^ 32 - 2 ^ 31

/-- `impl Ord for Token`: defined only between two `Int`s or two
`Symbol`s, everything else panics. -/
def tokCmp : Token → Token → Except String Ordering
  | Token.Int i1, o => match o with
    | Token.Int i2 => Except.ok (compare i1 i2)
    | _ => Except.error "comparison works only for numbers and symbols"
  | Token.Symbol s1, o => match o with
    | Token.Symbol s2 => Except.ok (compare s1 s2)
    | _ => Except.error "comparison works only for numbers and symbols"
  | _, _ => Except.error "comparison works only for numbers and symbols"

/-- The six binary operators dispatched by `evaluate`. -/
inductive BinOp where
  | add | sub | mul | gt | lt | eq

/-- The operator bodies: `impl Add/Sub/Mul for Token` (note the source
computes `rhs + lhs` and `rhs * lhs` but `lhs - rhs`), `>`/`<` through
`Ord::cmp`, and `=` through the total `PartialEq`. -/
def applyBin : BinOp → Token → Token → Except String Token
  | BinOp.add, a, b => match a, b with
    | Token.Int i, Token.Int j => Except.ok (Token.Int (i32wrap (j + i)))
    | _, _ => Except.error "you can add only integers"
  | BinOp.sub, a, b => match a, b with
    | Token.Int i, Token.Int j => Except.ok (Token.Int (i32wrap (i - j)))
    | _, _ => Except.error "you can subtract only integers"
  | BinOp.mul, a, b => match a, b with
    | Token.Int i, Token.Int j => Except.ok (Token.Int (i32wrap (j * i)))
    | _, _ => Except.error "you can multiply only integers"
  | BinOp.gt, a, b => (tokCmp a b).map (fun o => remapBool (o == Ordering.gt))
  | BinOp.lt, a, b => (tokCmp a b).map (fun o => remapBool (o == Ordering.lt))
  | BinOp.eq, a, b => Except.ok (remapBool (rustEq a b))

/-- Result of evaluating one node: a value plus the updated variable
mapping, a fatal abort (`panic!`), or fuel exhaustion (a Lean artifact). -/
inductive EvalRes where
  | ok (t : Token) (v : Vars)
  | fatal (msg : String)
  | timeout
deriving Repr

/-- Result of evaluating a list of nodes threading the mapping (`do`). -/
inductive SeqRes where
  | ok (ts : List Token) (v : Vars)
  | fatal (msg : String)
  | timeout
deriving Repr

/-- Panic message for `Option::unwrap` / `Vec` indexing out of bounds. -/
def oobMsg : String := "index out of bounds"

/-- Panic message for `list.first().unwrap()` on an empty list. -/
def unwrapNoneMsg : String := "unwrap on None"

mutual

/-- `fn evaluate` from src/main.rs, with fuel. Dispatch order of the
string arms follows the source match. -/
def evaluate : Nat → Token → Vars → EvalRes
  | 0, _, _ => EvalRes.timeout
  | f + 1, node, vars =>
    match node with
    | Token.Open => EvalRes.fatal "open symbol in AST makes no sense"
    | Token.Close => EvalRes.fatal "open symbol in AST makes no sense"
    | Token.Int n => EvalRes.ok (Token.Int n) vars
    | Token.Symbol s =>
      match getVar vars (Token.Symbol s) with
      | none => EvalRes.ok (Token.Symbol s) vars
      | some value => EvalRes.ok value vars
    | Token.True => EvalRes.ok Token.True vars
    | Token.False => EvalRes.ok Token.False vars
    | Token.List l =>
      match l with
      | [] => EvalRes.fatal unwrapNoneMsg
      | first :: _ =>
        match first with
        | Token.Symbol s =>
          if s = "+" then evalBin f l vars BinOp.add
          else if s = "-" then evalBin f l vars BinOp.sub
          else if s = "*" then evalBin f l vars BinOp.mul
          else if s = ">" then evalBin f l vars BinOp.gt
          else if s = "<" then evalBin f l vars BinOp.lt
          else if s = "=" then evalBin f l vars BinOp.eq
          else if s = "if" then
            match l.get? 1 with
            | none => EvalRes.fatal oobMsg
            | some cond =>
              match evaluate f cond vars with
              | EvalRes.ok r v1 =>
                if isTrueTok r then
                  match l.get? 2 with
                  | none => EvalRes.fatal oobMsg
                  | some x => evaluate f x v1
                else
                  match l.get? 3 with
                  | none => EvalRes.fatal oobMsg
                  | some y => evaluate f y v1
              | EvalRes.fatal m => EvalRes.fatal m
              | EvalRes.timeout => EvalRes.timeout
          else if s = "while" then evalWhile f l vars Token.False
          else if s = "do" then
            match evalSeq f (l.drop 1) vars with
            | SeqRes.ok rs v1 => EvalRes.ok (Token.List rs) v1
            | SeqRes.fatal m => EvalRes.fatal m
            | SeqRes.timeout => EvalRes.timeout
          else if s = "set" then
            match l.get? 2 with
            | none => EvalRes.fatal oobMsg
            | some e2 =>
              match evaluate f e2 vars with
              | EvalRes.ok value v1 =>
                match l.get? 1 with
                | none => EvalRes.fatal oobMsg
                | some key => EvalRes.ok value (setVar v1 key value)
              | EvalRes.fatal m => EvalRes.fatal m
              | EvalRes.timeout => EvalRes.timeout
          else if s = "print" then
            match l.get? 1 with
            | none => EvalRes.fatal oobMsg
            | some e1 =>
              match evaluate f e1 vars with
              | EvalRes.ok value v1 => EvalRes.ok value v1
              | EvalRes.fatal m => EvalRes.fatal m
              | EvalRes.timeout => EvalRes.timeout
          else
            match getVar vars (Token.Symbol s) with
            | none => EvalRes.fatal "unknown symbol"
            | some value => EvalRes.ok value vars
        | _ => EvalRes.fatal "can't evaluate list, first item needs to be a symbol"

/-- The shared shape of the six operator arms: index and evaluate
`list[1]`, then index and evaluate `list[2]`, then apply the operator. -/
def evalBin : Nat → List Token → Vars → BinOp → EvalRes
  | 0, _, _, _ => EvalRes.timeout
  | f + 1, l, vars, op =>
    match l.get? 1 with
    | none => EvalRes.fatal oobMsg
    | some e1 =>
      match evaluate f e1 vars with
      | EvalRes.ok r1 v1 =>
        match l.get? 2 with
        | none => EvalRes.fatal oobMsg
        | some e2 =>
          match evaluate f e2 v1 with
          | EvalRes.ok r2 v2 =>
            match applyBin op r1 r2 with
            | Except.ok r => EvalRes.ok r v2
            | Except.error m => EvalRes.fatal m
          | EvalRes.fatal m => EvalRes.fatal m
          | EvalRes.timeout => EvalRes.timeout
      | EvalRes.fatal m => EvalRes.fatal m
      | EvalRes.timeout => EvalRes.timeout

/-- The `while` arm: re-index `list[1]`/`list[2]` each iteration exactly
as the source loop does; `acc` is the `value` mutable, initially `False`. -/
def evalWhile : Nat → List Token → Vars → Token → EvalRes
  | 0, _, _, _ => EvalRes.timeout
  | f + 1, l, vars, acc =>
    match l.get? 1 with
    | none => EvalRes.fatal oobMsg
    | some cond =>
      match evaluate f cond vars with
      | EvalRes.ok r v1 =>
        if isTrueTok r then
          match l.get? 2 with
          | none => EvalRes.fatal oobMsg
          | some body =>
            match evaluate f body v1 with
            | EvalRes.ok rb v2 => evalWhile f l v2 rb
            | EvalRes.fatal m => EvalRes.fatal m
            | EvalRes.timeout => EvalRes.timeout
        else EvalRes.ok acc v1
      | EvalRes.fatal m => EvalRes.fatal m
      | EvalRes.timeout => EvalRes.timeout

/-- The `do` arm's fold: evaluate the remaining elements left to right,
threading the mapping, collecting the results. -/
def evalSeq : Nat → List Token → Vars → SeqRes
  | 0, _, _ => SeqRes.timeout
  | f + 1, items, vars =>
    match items with
    | [] => SeqRes.ok [] vars
    | e :: es =>
      match evaluate f e vars with
      | EvalRes.ok r v1 =>
        match evalSeq f es v1 with
        | SeqRes.ok rs v2 => SeqRes.ok (r :: rs) v2
        | SeqRes.fatal m => SeqRes.fatal m
        | SeqRes.timeout => SeqRes.timeout
      | EvalRes.fatal m => SeqRes.fatal m
      | EvalRes.timeout => SeqRes.timeout

end

/-- Result of a whole run: one value per top-level form, or an abort. -/
inductive RunRes where
  | ok (ts : List Token)
  | fatal (msg : String)
  | timeout
deriving Repr

/-- The fold in `fn run`: each top-level node is evaluated against a
freshly created empty mapping (`&mut HashMap::new()` inside the fold). -/
def evalTops (fuel : Nat) : List Token → RunRes
  | [] => RunRes.ok []
  | n :: ns =>
    match evaluate fuel n [] with
    | EvalRes.ok r _ =>
      match evalTops fuel ns with
      | RunRes.ok rs => RunRes.ok (r :: rs)
      | RunRes.fatal m => RunRes.fatal m
      | RunRes.timeout => RunRes.timeout
    | EvalRes.fatal m => RunRes.fatal m
    | EvalRes.timeout => RunRes.timeout

/-- `fn parse`, with the stack's top at the head of the list.  An
unmatched `Close` (stack about to underflow, then index out of range)
and a leftover stack at end of input are both fatal. -/
def parseGo : List Token → List (List Token) → Except String (List Token)
  | [], stack =>
    match stack with
    | [top] => Except.ok top
    | _ => Except.error "unmatched parenthesis"
  | t :: ts, stack =>
    match t with
    | Token.Open => parseGo ts ([] :: stack)
    | Token.Close =>
      match stack with
      | top :: next :: rest => parseGo ts ((next ++ [Token.List top]) :: rest)
      | _ => Except.error "unmatched close parenthesis"
    | Token.Int _ | Token.Symbol _ | Token.List _ =>
      match stack with
      | top :: rest => parseGo ts ((top ++ [t]) :: rest)
      | [] => Except.error "empty parse stack"
    | _ => Except.error "unrecognized token in parsing"

/-- `fn parse`: start from one empty in-progress list. -/
def parse (toks : List Token) : Except String (List Token) :=
  parseGo toks [[]]

/-- First character of the suffix is a digit (`[0-9]`). -/
def headIsDigit : List Char → Bool
  | [] => false
  | c :: _ => c.isDigit

/-- First character of a symbol (`[+\-*><=a-zA-Z]`). -/
def isSymStart (c : Char) : Bool :=
  c = '+' || c = '-' || c = '*' || c = '>' || c = '<' || c = '=' || c.isAlpha

/-- Continuation character of a symbol (`[a-zA-Z0-9]`). -/
def isSymCont (c : Char) : Bool := c.isAlphanum

/-- Digit-string value, as `parse::<i32>` reads the digits. -/
def digitsToNat (ds : List Char) : Nat :=
  List.foldl (fun acc c => 10 * acc + (c.toNat - Char.toNat '0')) 0 ds

/-- Panic message for an integer literal outside the `i32` range. -/
def intParseErr : String := "int literal out of i32 range"

/-- One step of `impl Iterator for Lexer`: `ok none` is end of input,
otherwise the next token plus the remaining suffix.  The rules are tried
in the source's order: open, close, int (optional sign then digits),
symbol, newline, other whitespace, else a fatal lexical error.  Line
counting is not modelled. -/
def lexNext : List Char → Except String (Option (Token × List Char))
  | [] => Except.ok none
  | c :: rest =>
    if c = '(' then Except.ok (some (Token.Open, rest))
    else if c = ')' then Except.ok (some (Token.Close, rest))
    else if c.isDigit then
      if digitsToNat (List.takeWhile Char.isDigit (c :: rest)) < 2 ^ 31 then
        Except.ok (some (Token.Int (Int.ofNat (digitsToNat (List.takeWhile Char.isDigit (c :: rest)))),
          List.dropWhile Char.isDigit (c :: rest)))
      else Except.error intParseErr
    else if (c = '+' || c = '-') && headIsDigit rest then
      if c = '-' then
        if digitsToNat (List.takeWhile Char.isDigit rest) ≤ 2 ^ 31 then
          Except.ok (some (Token.Int (-(Int.ofNat (digitsToNat (List.takeWhile Char.isDigit rest)))),
            List.dropWhile Char.isDigit rest))
        else Except.error intParseErr
      else
        if digitsToNat (List.takeWhile Char.isDigit rest) < 2 ^ 31 then
          Except.ok (some (Token.Int (Int.ofNat (digitsToNat (List.takeWhile Char.isDigit rest))),
            List.dropWhile Char.isDigit rest))
        else Except.error intParseErr
    else if isSymStart c then
      Except.ok (some (Token.Symbol (String.mk (c :: List.takeWhile isSymCont rest)),
        List.dropWhile isSymCont rest))
    else if c = '\n' then lexNext rest
    else if c.isWhitespace then lexNext rest
    else Except.error "unrecognized symbol"

/-- The lexer run to completion, with fuel for Lean totality (each
emitted token consumes at least one character, so `l.length + 1` steps
always suffice; the "lexer fuel exhausted" result is a Lean artifact,
not a behaviour of the source). -/
def lexAllFuel : Nat → List Char → Except String (List Token)
  | 0, _ => Except.error "lexer fuel exhausted"
  | g + 1, l =>
    match lexNext l with
    | Except.error e => Except.error e
    | Except.ok none => Except.ok []
    | Except.ok (some (t, r)) =>
      match lexAllFuel g r with
      | Except.ok ts => Except.ok (t :: ts)
      | Except.error e => Except.error e

/-- The lexer run to completion (the parser consumes it eagerly). -/
def lexAll (l : List Char) : Except String (List Token) :=
  lexAllFuel (l.length + 1) l

/-- `fn run`: tokenize, parse, then fold over the top-level nodes.
A lexical or parse panic aborts before any evaluation. -/
def run (fuel : Nat) (text : String) : RunRes :=
  match lexAll text.toList with
  | Except.error e => RunRes.fatal e
  | Except.ok toks =>
    match parse toks with
    | Except.error e => RunRes.fatal e
    | Except.ok ast => evalTops fuel ast

/-- Some amount of fuel evaluates node `x` at mapping `v` to the value
`r` and mapping `v'` (i.e. the source's `evaluate` terminates there). -/
def EvalsTo (x : Token) (v : Vars) (r : Token) (v' : Vars) : Prop :=
  ∃ f, evaluate f x v = EvalRes.ok r v'

/-- Claim-side relation for `do`: the nodes of `es` evaluate left to
right, each against the mapping left by its predecessor, giving the
results `rs` elementwise and the final mapping. -/
inductive SeqRun : List Token → Vars → List Token → Vars → Prop where
  | nil (v : Vars) : SeqRun [] v [] v
  | cons {e : Token} {es : List Token} {v v1 v2 : Vars} {r : Token} {rs : List Token} :
      EvalsTo e v r v1 → SeqRun es v1 rs v2 → SeqRun (e :: es) v (r :: rs) v2

/-- Claim-side relation for `while`: from mapping `v` with current loop
value `acc`, the condition evaluates to exactly `True` `n` consecutive
times with the body evaluated after each `True`, then the condition
evaluates to a non-`True` value; the loop's value is the last body
result (`acc` itself when the body never ran). -/
inductive WhileSpec (c b : Token) : Vars → Token → Nat → Token → Vars → Prop where
  | done {v v1 : Vars} {acc r : Token} :
      EvalsTo c v r v1 → r ≠ Token.True → WhileSpec c b v acc 0 acc v1
  | step {v v1 v2 vf : Vars} {acc rb res : Token} {n : Nat} :
      EvalsTo c v Token.True v1 → EvalsTo b v1 rb v2 →
      WhileSpec c b v2 rb n res vf → WhileSpec c b v acc (n + 1) res vf

/-- Claim-side definition of balanced parentheses: scanning with a
depth counter, no prefix closes more than it opened, and the final
depth is zero. -/
def balancedFrom : List Token → Nat → Bool
  | [], 0 => true
  | [], _ + 1 => false
  | Token.Open :: ts, d => balancedFrom ts (d + 1)
  | Token.Close :: ts, 0 => false
  | Token.Close :: ts, d + 1 => balancedFrom ts d
  | _ :: ts, d => balancedFrom ts d

/-- Whether a parse produced a result sequence. -/
def exceptIsOk {α : Type} : Except String α → Bool
  | Except.ok _ => true
  | Except.error _ => false

/-- Whether a run produced a result sequence. -/
def runIsOk : RunRes → Bool
  | RunRes.ok _ => true
  | _ => false

/-- The keywords recognized in call position by `evaluate`'s dispatch. -/
def specialForms : List String :=
  ["+", "-", "*", ">", "<", "=", "if", "while", "do", "set", "print"]

/-- C10: evaluating an empty `List` (source text "()") is fatal: the
evaluator aborts on `list.first().unwrap()` — with the unwrap panic,
not the symbol-dispatch or "first item needs to be a symbol" paths —
for every fuel and mapping, so an empty list never yields a value;
consequently `run` on "()" aborts with that same panic. -/
theorem c10_empty_list_fatal (f : Nat) (v : Vars) :
    evaluate (f + 1) (Token.List []) v = EvalRes.fatal unwrapNoneMsg ∧
    run (f + 1) "()" = RunRes.fatal unwrapNoneMsg :=
  ⟨rfl, rfl⟩

/-- C7: a well-formed `(if c x y)` evaluates the condition and returns
the evaluation of `x` exactly when the condition's value is the token
`True`; for any other condition value it returns the evaluation of `y`,
and the equation shows the untaken branch (arbitrary here) is never
evaluated. -/
theorem c7_if_requires_exact_true (f : Nat) (c x y r : Token) (v v1 : Vars)
    (h : evaluate f c v = EvalRes.ok r v1) :
    evaluate (f + 1) (Token.List [Token.Symbol "if", c, x, y]) v
      = if isTrueTok r then evaluate f x v1 else evaluate f y v1 := by
  simp [evaluate, h]

theorem c7_if_requires_exact_true_witness :
    evaluate 2 (Token.List [Token.Symbol "if", Token.Int 0, Token.Int 1, Token.Int 2]) []
      = if isTrueTok (Token.Int 0) then evaluate 1 (Token.Int 1) []
        else evaluate 1 (Token.Int 2) [] :=
  c7_if_requires_exact_true 1 (Token.Int 0) (Token.Int 1) (Token.Int 2) (Token.Int 0) [] [] rfl

/-- C5: unbound-symbol handling is asymmetric by position — a bare
`Symbol` not bound in the mapping evaluates to itself (self-quoting,
not an error), while a `List` headed by a `Symbol` that is neither a
special form/operator keyword nor bound is the fatal "unknown symbol"
error. -/
theorem c5_symbol_position_asymmetry (f : Nat) (s : String) (v : Vars) (rest : List Token)
    (hv : getVar v (Token.Symbol s) = none) (hk : s ∉ specialForms) :
    evaluate (f + 1) (Token.Symbol s) v = EvalRes.ok (Token.Symbol s) v ∧
    evaluate (f + 1) (Token.List (Token.Symbol s :: rest)) v
      = EvalRes.fatal "unknown symbol" := by
  simp only [specialForms, List.mem_cons, List.mem_singleton, not_or] at hk
  obtain ⟨h1, h2, h3, h4, h5, h6, h7, h8, h9, h10, h11, -⟩ := hk
  constructor
  · simp [evaluate, hv]
  · simp [evaluate, hv, h1, h2, h3, h4, h5, h6, h7, h8, h9, h10, h11]

theorem c5_symbol_position_asymmetry_witness :
    evaluate 4 (Token.Symbol "foo") [] = EvalRes.ok (Token.Symbol "foo") [] ∧
    evaluate 4 (Token.List [Token.Symbol "foo"]) [] = EvalRes.fatal "unknown symbol" :=
  c5_symbol_position_asymmetry 3 "foo" [] [] rfl (by decide)

/-- C3: for 32-bit operands, `(+ a b)` yields `Int (a + b)`, `(- a b)`
yields `Int (a - b)` (first operand minus second, the conventional
order), `(* a b)` yields `Int (a * b)`, each under the single
two's-complement wrap `i32wrap` (one consistent overflow policy for all
three operators); the final conjuncts show the wrap is the identity
whenever the mathematical result is in range. -/
theorem c3_arith_wrap (f : Nat) (a b : ℤ) (v : Vars)
    (ha1 : -(2 ^ 31) ≤ a) (ha2 : a < 2 ^ 31)
    (hb1 : -(2 ^ 31) ≤ b) (hb2 : b < 2 ^ 31) :
    evaluate (f + 3) (Token.List [Token.Symbol "+", Token.Int a, Token.Int b]) v
      = EvalRes.ok (Token.Int (i32wrap (a + b))) v ∧
    evaluate (f + 3) (Token.List [Token.Symbol "-", Token.Int a, Token.Int b]) v
      = EvalRes.ok (Token.Int (i32wrap (a - b))) v ∧
    evaluate (f + 3) (Token.List [Token.Symbol "*", Token.Int a, Token.Int b]) v
      = EvalRes.ok (Token.Int (i32wrap (a * b))) v ∧
    (-(2 ^ 31) ≤ a + b → a + b < 2 ^ 31 → i32wrap (a + b) = a + b) ∧
    (-(2 ^ 31) ≤ a - b → a - b < 2 ^ 31 → i32wrap (a - b) = a - b) ∧
    (-(2 ^ 31) ≤ a * b → a * b < 2 ^ 31 → i32wrap (a * b) = a * b) := by
  refine ⟨?_, ?_, ?_, ?_, ?_, ?_⟩
  · simp [evaluate, evalBin, applyBin, Int.add_comm]
  · simp [evaluate, evalBin, applyBin]
  · simp [evaluate, evalBin, applyBin, Int.mul_comm]
  · intro hx1 hx2; simp only [i32wrap]; omega
  · intro hx1 hx2; simp only [i32wrap]; omega
  · intro hx1 hx2; simp only [i32wrap]; omega

theorem c3_arith_wrap_witness :
    evaluate 3 (Token.List [Token.Symbol "+", Token.Int (2 ^ 31 - 1), Token.Int 1]) []
      = EvalRes.ok (Token.Int (i32wrap (2 ^ 31 - 1 + 1))) [] :=
  (c3_arith_wrap 0 (2 ^ 31 - 1) 1 [] (by decide) (by decide) (by decide) (by decide)).1

/-- C2 counterexample: for `=` the claim's "any other pairing is fatal"
is false — comparing two `List` values (here the results of two `(do)`
forms) is not a fatal error; the form returns `True`. -/
theorem c2_eq_not_fatal_counterexample :
    evaluate 9 (Token.List [Token.Symbol "=", Token.List [Token.Symbol "do"],
      Token.List [Token.Symbol "do"]]) [] = EvalRes.ok Token.True [] := rfl

/-- C2 amended: `=` evaluates operands 2 and 3 and never faults on the
comparison itself — it returns `remapBool` of the source's total
structural `PartialEq` relation (`rustEq`) on the two values, i.e.
`True` exactly when they are equal under it; the trailing conjuncts
record that on two `Int`s or two `Symbol`s this relation is ordinary
equality, as the claim states for those cases. -/
theorem c2_eq_total (f : Nat) (a b r1 r2 : Token) (v v1 v2 : Vars)
    (h1 : evaluate f a v = EvalRes.ok r1 v1) (h2 : evaluate f b v1 = EvalRes.ok r2 v2) :
    evaluate (f + 2) (Token.List [Token.Symbol "=", a, b]) v
      = EvalRes.ok (remapBool (rustEq r1 r2)) v2 ∧
    (∀ i j : ℤ, rustEq (Token.Int i) (Token.Int j) = (i == j)) ∧
    (∀ s t : String, rustEq (Token.Symbol s) (Token.Symbol t) = (s == t)) := by
  refine ⟨?_, fun i j => rfl, fun s t => rfl⟩
  simp [evaluate, evalBin, applyBin, h1, h2]

theorem c2_eq_total_witness :
    evaluate 3 (Token.List [Token.Symbol "=", Token.Int 1, Token.Int 1]) []
      = EvalRes.ok (remapBool (rustEq (Token.Int 1) (Token.Int 1))) [] :=
  (c2_eq_total 1 (Token.Int 1) (Token.Int 1) (Token.Int 1) (Token.Int 1) [] [] [] rfl rfl).1

/-- C1 counterexample: `run` does not share one mapping across
top-level forms — after `(set x 1)` in the first form, the second
top-level form `x` does not return the last-set value `Int 1`; it
self-quotes to `Symbol "x"` because each top-level form is evaluated
against a freshly created empty mapping. -/
theorem c1_shared_mapping_counterexample :
    run 10 "(set x 1) x" = RunRes.ok [Token.Int 1, Token.Symbol "x"] := rfl

/-- C1 amended: the fold in `run` creates a new empty mapping for every
top-level node (`&mut HashMap::new()` sits inside the fold), so the
results of a node sequence decompose into each node evaluated from the
empty mapping, independently of whatever mapping earlier nodes built —
a `set` in an earlier top-level form is invisible to later ones. -/
theorem c1_fresh_mapping_per_form (f : Nat) (n : Token) (ns : List Token)
    (r : Token) (rs : List Token) :
    evalTops f (n :: ns) = RunRes.ok (r :: rs)
      ↔ (∃ v, evaluate f n [] = EvalRes.ok r v) ∧ evalTops f ns = RunRes.ok rs := by
  constructor
  · intro h
    unfold evalTops at h
    cases he : evaluate f n [] with
    | ok r0 v0 =>
      rw [he] at h
      cases ht : evalTops f ns with
      | ok rs0 =>
        rw [ht] at h
        simp only [RunRes.ok.injEq, List.cons.injEq] at h
        obtain ⟨rfl, rfl⟩ := h
        exact ⟨⟨v0, rfl⟩, rfl⟩
      | fatal m => rw [ht] at h; simp at h
      | timeout => rw [ht] at h; simp at h
    | fatal m => rw [he] at h; simp at h
    | timeout => rw [he] at h; simp at h
  · rintro ⟨⟨v, hv⟩, hns⟩
    unfold evalTops
    rw [hv, hns]

theorem SeqRun.length_eq {es rs : List Token} {v v' : Vars}
    (h : SeqRun es v rs v') : rs.length = es.length := by
  induction h with
  | nil => rfl
  | cons _ _ ih => simp [ih]

theorem evalSeq_SeqRun {f : Nat} {es ts : List Token} {v v' : Vars}
    (h : evalSeq f es v = SeqRes.ok ts v') : SeqRun es v ts v' := by
  induction f generalizing es ts v v' with
  | zero => simp [evalSeq] at h
  | succ g ih =>
    cases es with
    | nil =>
      simp only [evalSeq, SeqRes.ok.injEq] at h
      obtain ⟨rfl, rfl⟩ := h
      exact SeqRun.nil v
    | cons e es =>
      have hred : evalSeq (g + 1) (e :: es) v
          = (match evaluate g e v with
              | EvalRes.ok r v1 =>
                (match evalSeq g es v1 with
                  | SeqRes.ok rs v2 => SeqRes.ok (r :: rs) v2
                  | SeqRes.fatal m => SeqRes.fatal m
                  | SeqRes.timeout => SeqRes.timeout)
              | EvalRes.fatal m => SeqRes.fatal m
              | EvalRes.timeout => SeqRes.timeout) := rfl
      rw [hred] at h
      cases he : evaluate g e v with
      | ok r v1 =>
        simp only [he] at h
        cases ht : evalSeq g es v1 with
        | ok rs v2 =>
          simp only [ht, SeqRes.ok.injEq] at h
          obtain ⟨rfl, rfl⟩ := h
          exact SeqRun.cons ⟨g, he⟩ (ih ht)
        | fatal m => simp [ht] at h
        | timeout => simp [ht] at h
      | fatal m => simp [he] at h
      | timeout => simp [he] at h

/-- C8: a `(do e1 ... eN)` form that yields a value yields a `List`
(never unwrapped, including N = 0 and N = 1) whose elements are the
evaluations of `e1 .. eN` in left-to-right order, each evaluated against
the mapping left by its predecessor (so earlier side effects are seen by
later elements), ending in the form's final mapping. -/
theorem c8_do_collects (f : Nat) (es : List Token) (r : Token) (v v' : Vars)
    (h : evaluate f (Token.List (Token.Symbol "do" :: es)) v = EvalRes.ok r v') :
    ∃ ts, r = Token.List ts ∧ ts.length = es.length ∧ SeqRun es v ts v' := by
  cases f with
  | zero => simp [evaluate] at h
  | succ g =>
    have hred : evaluate (g + 1) (Token.List (Token.Symbol "do" :: es)) v
        = (match evalSeq g es v with
            | SeqRes.ok rs v1 => EvalRes.ok (Token.List rs) v1
            | SeqRes.fatal m => EvalRes.fatal m
            | SeqRes.timeout => EvalRes.timeout) := rfl
    rw [hred] at h
    cases ht : evalSeq g es v with
    | ok ts v2 =>
      rw [ht] at h
      simp only [EvalRes.ok.injEq] at h
      obtain ⟨rfl, rfl⟩ := h
      have hrun := evalSeq_SeqRun ht
      exact ⟨ts, rfl, hrun.length_eq, hrun⟩
    | fatal m => rw [ht] at h; simp at h
    | timeout => rw [ht] at h; simp at h

theorem c8_do_collects_witness :
    ∃ ts, Token.List [Token.Int 1] = Token.List ts ∧
      ts.length = [Token.Int 1].length ∧ SeqRun [Token.Int 1] [] ts [] :=
  c8_do_collects 5 [Token.Int 1] (Token.List [Token.Int 1]) [] [] rfl

theorem isTrueTok_eq_true {r : Token} (h : isTrueTok r = true) : r = Token.True := by
  cases r <;> first | rfl | simp [isTrueTok] at h

theorem isTrueTok_eq_false {r : Token} (h : isTrueTok r = false) : r ≠ Token.True := by
  intro hT
  subst hT
  simp [isTrueTok] at h

theorem evalWhile_spec {f : Nat} {l : List Token} {c b res : Token} {v v' : Vars}
    {acc : Token} (hc : l.get? 1 = some c) (hb : l.get? 2 = some b)
    (h : evalWhile f l v acc = EvalRes.ok res v') :
    ∃ n, WhileSpec c b v acc n res v' := by
  induction f generalizing v acc with
  | zero => simp [evalWhile] at h
  | succ g ih =>
    have hred : evalWhile (g + 1) l v acc
        = (match l.get? 1 with
            | none => EvalRes.fatal oobMsg
            | some cond =>
              match evaluate g cond v with
              | EvalRes.ok r v1 =>
                if isTrueTok r then
                  match l.get? 2 with
                  | none => EvalRes.fatal oobMsg
                  | some body =>
                    match evaluate g body v1 with
                    | EvalRes.ok rb v2 => evalWhile g l v2 rb
                    | EvalRes.fatal m => EvalRes.fatal m
                    | EvalRes.timeout => EvalRes.timeout
                else EvalRes.ok acc v1
              | EvalRes.fatal m => EvalRes.fatal m
              | EvalRes.timeout => EvalRes.timeout) := rfl
    rw [hred, hc] at h
    cases he : evaluate g c v with
    | ok r v1 =>
      simp only [he] at h
      cases hr : isTrueTok r with
      | true =>
        have hrT := isTrueTok_eq_true hr
        subst hrT
        simp only [hr, if_true, hb] at h
        cases hbe : evaluate g b v1 with
        | ok rb v2 =>
          simp only [hbe] at h
          obtain ⟨n, hn⟩ := ih h
          exact ⟨n + 1, WhileSpec.step ⟨g, he⟩ ⟨g, hbe⟩ hn⟩
        | fatal m => simp [hbe] at h
        | timeout => simp [hbe] at h
      | false =>
        simp only [hr, Bool.false_eq_true, if_false, EvalRes.ok.injEq] at h
        obtain ⟨rfl, rfl⟩ := h
        exact ⟨0, WhileSpec.done ⟨g, he⟩ (isTrueTok_eq_false hr)⟩
    | fatal m => simp [he] at h
    | timeout => simp [he] at h

/-- C6: whenever `(while c b)` terminates with a value, there is an
iteration count `n` such that the condition evaluated to exactly `True`
`n` consecutive times from the start (then to a non-`True` value), the
body was evaluated exactly once per `True`, and the form's value is the
last body result — or the initial `False` when `n = 0`. -/
theorem c6_while_iteration_count (f : Nat) (c b res : Token) (v v' : Vars)
    (h : evaluate f (Token.List [Token.Symbol "while", c, b]) v = EvalRes.ok res v') :
    ∃ n, WhileSpec c b v Token.False n res v' := by
  cases f with
  | zero => simp [evaluate] at h
  | succ g =>
    have hred : evaluate (g + 1) (Token.List [Token.Symbol "while", c, b]) v
        = evalWhile g [Token.Symbol "while", c, b] v Token.False := rfl
    rw [hred] at h
    exact evalWhile_spec (by rfl) (by rfl) h

theorem c6_while_iteration_count_witness :
    ∃ n, WhileSpec
      (Token.List [Token.Symbol ">", Token.Symbol "i", Token.Int 0])
      (Token.List [Token.Symbol "set", Token.Symbol "i",
        Token.List [Token.Symbol "-", Token.Symbol "i", Token.Int 1]])
      [(Token.Symbol "i", Token.Int 1)] Token.False n (Token.Int 0)
      [(Token.Symbol "i", Token.Int 0)] :=
  c6_while_iteration_count 10
    (Token.List [Token.Symbol ">", Token.Symbol "i", Token.Int 0])
    (Token.List [Token.Symbol "set", Token.Symbol "i",
      Token.List [Token.Symbol "-", Token.Symbol "i", Token.Int 1]])
    (Token.Int 0) [(Token.Symbol "i", Token.Int 1)] [(Token.Symbol "i", Token.Int 0)] rfl

theorem parseGo_ok_balanced {ts res : List Token} {stack : List (List Token)}
    (hne : stack ≠ []) (h : parseGo ts stack = Except.ok res) :
    balancedFrom ts (stack.length - 1) = true := by
  induction ts generalizing stack with
  | nil =>
    cases stack with
    | nil => exact absurd rfl hne
    | cons top rest =>
      cases rest with
      | nil => simp [balancedFrom]
      | cons _ _ => simp [parseGo] at h
  | cons t ts ih =>
    cases stack with
    | nil => exact absurd rfl hne
    | cons top rest =>
      cases t with
      | Open =>
        have hb := @ih ([] :: top :: rest) (by simp) h
        simpa [balancedFrom] using hb
      | Close =>
        cases rest with
        | nil => simp [parseGo] at h
        | cons next rest2 =>
          have hb := @ih ((next ++ [Token.List top]) :: rest2) (by simp) h
          simpa [balancedFrom] using hb
      | Int i =>
        have hb := @ih ((top ++ [Token.Int i]) :: rest) (by simp) h
        simpa [balancedFrom] using hb
      | Symbol s =>
        have hb := @ih ((top ++ [Token.Symbol s]) :: rest) (by simp) h
        simpa [balancedFrom] using hb
      | List l =>
        have hb := @ih ((top ++ [Token.List l]) :: rest) (by simp) h
        simpa [balancedFrom] using hb
      | True => simp [parseGo] at h
      | False => simp [parseGo] at h

/-- C4: a token sequence with unbalanced parentheses — an unmatched
`Close` (some prefix closing more than it opened) or unmatched `Open`
(nonzero depth at end of input) — never parses to a result sequence,
and a source text lexing to such tokens never yields a run result, so
no partial value sequence reaches the caller. -/
theorem c4_unbalanced_parens_fatal (toks : List Token)
    (h : balancedFrom toks 0 = false) :
    exceptIsOk (parse toks) = false ∧
    ∀ (fuel : Nat) (text : String), lexAll text.toList = Except.ok toks →
      runIsOk (run fuel text) = false := by
  have hp : ∀ res, parse toks ≠ Except.ok res := by
    intro res hok
    have hb := @parseGo_ok_balanced toks res [[]] (by simp) hok
    simp only [List.length_cons, List.length_nil, Nat.add_sub_cancel] at hb
    rw [h] at hb
    exact Bool.false_ne_true hb
  constructor
  · cases hpp : parse toks with
    | ok res => exact absurd hpp (hp res)
    | error e => simp [exceptIsOk]
  · intro fuel text hlex
    unfold run
    rw [hlex]
    cases hpp : parse toks with
    | ok res => exact absurd hpp (hp res)
    | error e => simp [runIsOk, hpp]

theorem c4_unbalanced_parens_fatal_witness :
    exceptIsOk (parse [Token.Open]) = false :=
  (c4_unbalanced_parens_fatal [Token.Open] rfl).1

theorem takeWhile_digits_append {ds rest : List Char}
    (hall : ds.all Char.isDigit = true) (hrest : headIsDigit rest = false) :
    List.takeWhile Char.isDigit (ds ++ rest) = ds ∧
    List.dropWhile Char.isDigit (ds ++ rest) = rest := by
  induction ds with
  | nil =>
    cases rest with
    | nil => simp
    | cons c cs =>
      simp only [headIsDigit] at hrest
      simp [List.takeWhile, List.dropWhile, hrest]
  | cons d ds ih =>
    simp only [List.all_cons, Bool.and_eq_true] at hall
    obtain ⟨hd, hall2⟩ := hall
    obtain ⟨h1, h2⟩ := ih hall2
    simp [List.takeWhile, List.dropWhile, hd, h1, h2]

/-- C9: the lexer tries the integer rule before the symbol rule.  For a
suffix that is (maximal) digits `ds` then a non-digit continuation, the
lexer emits `Int` for `ds`, `'+' :: ds` and `'-' :: ds` alike (so "-2"
lexes as `Int (-2)`, never as the symbol `-`), with the value read from
the digits and the sign applied; while a `'+'` or `'-'` not immediately
followed by a digit falls through to the symbol rule and is lexed as a
`Symbol` (the sign character plus any alphanumeric continuation). -/
theorem c9_int_rule_before_symbol (ds rest rest2 : List Char)
    (hds : ds ≠ []) (hall : ds.all Char.isDigit = true)
    (hrest : headIsDigit rest = false) (hn : digitsToNat ds < 2 ^ 31)
    (hrest2 : headIsDigit rest2 = false) :
    lexNext (ds ++ rest) = Except.ok (some (Token.Int (Int.ofNat (digitsToNat ds)), rest)) ∧
    lexNext ('+' :: (ds ++ rest))
      = Except.ok (some (Token.Int (Int.ofNat (digitsToNat ds)), rest)) ∧
    lexNext ('-' :: (ds ++ rest))
      = Except.ok (some (Token.Int (-(Int.ofNat (digitsToNat ds))), rest)) ∧
    lexNext ('+' :: rest2)
      = Except.ok (some (Token.Symbol (String.mk ('+' :: List.takeWhile isSymCont rest2)),
          List.dropWhile isSymCont rest2)) ∧
    lexNext ('-' :: rest2)
      = Except.ok (some (Token.Symbol (String.mk ('-' :: List.takeWhile isSymCont rest2)),
          List.dropWhile isSymCont rest2)) := by
  obtain ⟨d, ds', rfl⟩ : ∃ d ds', ds = d :: ds' := by
    cases ds with
    | nil => exact absurd rfl hds
    | cons d ds' => exact ⟨d, ds', rfl⟩
  have hd : d.isDigit = true := by
    simp only [List.all_cons, Bool.and_eq_true] at hall
    exact hall.1
  have hne1 : ¬d = '(' := by
    intro hcontra
    rw [hcontra] at hd
    simp [Char.isDigit] at hd
  have hne2 : ¬d = ')' := by
    intro hcontra
    rw [hcontra] at hd
    simp [Char.isDigit] at hd
  obtain ⟨htw, hdw⟩ := takeWhile_digits_append hall hrest
  simp only [List.cons_append] at htw hdw
  have hhead : headIsDigit (d :: (ds' ++ rest)) = true := by
    simp [headIsDigit, hd]
  have hn1 : digitsToNat (d :: ds') < 2147483648 := by
    have hx := hn
    norm_num at hx
    exact hx
  have hn2 : digitsToNat (d :: ds') ≤ 2147483648 := Nat.le_of_lt hn1
  refine ⟨?_, ?_, ?_, ?_, ?_⟩
  · show lexNext (d :: (ds' ++ rest)) = _
    simp [lexNext, hne1, hne2, hd, htw, hdw, hn1]
  · simp [lexNext, hhead, htw, hdw, hn1]
  · simp [lexNext, hhead, htw, hdw, hn1, hn2]
  · simp [lexNext, hrest2, isSymStart]
  · simp [lexNext, hrest2, isSymStart]

theorem c9_int_rule_before_symbol_witness :
    lexNext ['-', '2']
      = Except.ok (some (Token.Int (-(Int.ofNat (digitsToNat ['2']))), ([] : List Char))) :=
  (c9_int_rule_before_symbol ['2'] [] ['a'] (by simp) (by decide) rfl (by decide) rfl).2.2.1
